import Mathlib

/-!
Verification development for the Hulk bash-configuration manager.

The definitions below are a shallow embedding of the parsing,
serialization and store logic of the repository:

* src/main.js — class Application: parseAlias, isGroup, aliases,
  parseEnvVar, env, aliasToString, saveAliases, aliasBackupFilename, path;
* src/unnamed/part_003 — class Store: add, get, keys, fetch;
* src/unnamed/part_004 — the legacy main process: getAliases,
  backupAliasFilename, backupAliases.

JavaScript strings are modelled as Lean String / List Char; the regular
expressions of the source are translated to explicit character scans
(each translation is justified in the comment above the definition);
JavaScript exceptions are modelled by Option (none = throw); file writes
are modelled as an explicit trace of (path, content) pairs.
-/

namespace Hulk

/-- Character class of the JavaScript regex `\s`
(ECMA-262 WhiteSpace and LineTerminator characters). -/
def isWs (c : Char) : Bool :=
  c == ' ' || c == '\t' || c == '\n' || c == '\x0b' || c == '\x0c' || c == '\r' ||
  c == ' ' || c == ' ' || (' ' ≤ c && c ≤ ' ') ||
  c == ' ' || c == ' ' || c == ' ' || c == ' ' ||
  c == '　' || c == '﻿'

/-- Character class of the JavaScript regex `\w`: `[A-Za-z0-9_]`. -/
def isWordChar (c : Char) : Bool :=
  ('A' ≤ c && c ≤ 'Z') || ('a' ≤ c && c ≤ 'z') || ('0' ≤ c && c ≤ '9') || c == '_'

/-- Character class of `[\w-\.]` (the alias-name class of src/main.js):
`\w`, a literal `-`, or a literal `.`. -/
def isNameChar (c : Char) : Bool :=
  isWordChar c || c == '-' || c == '.'

/-- Characters matched by `.` in a JavaScript regex without the `s` flag:
everything except a LineTerminator. -/
def dotMatch (c : Char) : Bool :=
  !(c == '\n' || c == '\r' || c == ' ' || c == ' ')

/-- A character that is neither `\n` nor `\r`; lines made of such
characters survive a join-then-split round trip unchanged. -/
def cleanChar (c : Char) : Bool :=
  !(c == '\n' || c == '\r')

/-- Test whether the first list is a leading segment of the second. -/
def hasPre : List Char → List Char → Bool
  | [], _ => true
  | _ :: _, [] => false
  | a :: as, b :: bs => a == b && hasPre as bs

/-- Occurrence of `pat` anywhere in the list; model of
JavaScript `String.prototype.includes` and of unanchored literal regexes. -/
def hasSubL (pat : List Char) : List Char → Bool
  | [] => hasPre pat []
  | c :: rest => hasPre pat (c :: rest) || hasSubL pat rest

/-- String-level wrapper for `hasSubL`. -/
def strHas (s pat : String) : Bool := hasSubL pat.toList s.toList

/-- Model of `Array.prototype.splice(i, 0, x)`: insert `x` at index `i`
(JavaScript clamps `i` to the array length, as `take`/`drop` do). -/
def spliceInsert {α : Type} (l : List α) (i : Nat) (x : α) : List α :=
  l.take i ++ x :: l.drop i

/-- Index of the first element satisfying `p`; model of
`Array.prototype.find` composed with `indexOf` of the found element. -/
def findIdxO {α : Type} (p : α → Bool) : List α → Option Nat
  | [] => none
  | x :: xs => if p x then some 0 else (findIdxO p xs).map (· + 1)

/-- Prepend a character to the first line of a split result
(the empty case cannot arise: a split result is never empty). -/
def consHead (c : Char) : List (List Char) → List (List Char)
  | l :: ls => (c :: l) :: ls
  | [] => [[c]]

/-- Model of `String.prototype.split(/\r?\n/)` (Application.toLines,
src/main.js lines 233-238, after Buffer#toString): split on `\n`,
consuming a `\r` immediately before it; a lone `\r` stays in its line. -/
def splitLines : List Char → List (List Char)
  | [] => [[]]
  | [c] => if c == '\n' then [[], []] else [[c]]
  | c :: d :: rest =>
    if c == '\n' then [] :: splitLines (d :: rest)
    else if c == '\r' && d == '\n' then [] :: splitLines rest
    else consHead c (splitLines (d :: rest))

/-- The lines of a file's text, as strings. -/
def linesOfStr (s : String) : List String := (splitLines s.toList).map String.mk

/-- Model of `Array.prototype.join("\n")` (src/main.js line 249). -/
def joinWithNl : List String → List Char
  | [] => []
  | [x] => x.toList
  | x :: y :: rest => x.toList ++ '\n' :: joinWithNl (y :: rest)

/-!
Alias-file parsing (src/main.js, Application.parseAlias / isGroup /
aliases; identical functions appear in the legacy main process
src/unnamed/part_004 as getAlias / isGroup / getAliases).
-/

/-- One record of the parsed aliases file.
`parseAlias` produces exactly these two shapes:
an alias object `{line, type: "alias", alias, command, group}` or a
passthrough object `{line, type: "line", text, group}` (group a boolean). -/
inductive AliasEntry : Type where
  | aliasRec (lineNo : Nat) (name : String) (command : String) (group : String)
  | lineRec (lineNo : Nat) (text : String) (group : Bool)
deriving DecidableEq, Repr

/-- Matcher for one unanchored occurrence of `alias\s([\w-\.]+)=` starting
at the head of the list: literal `alias`, one `\s` character, a non-empty
run of name characters whose maximal extent is immediately followed by `=`
(backtracking cannot shorten the run: the character after a shorter run is
a name character, never `=`). -/
def aliasPatAt : List Char → Bool
  | 'a' :: 'l' :: 'i' :: 'a' :: 's' :: d :: tail =>
    isWs d && !(tail.takeWhile isNameChar).isEmpty &&
      (match tail.dropWhile isNameChar with
       | '=' :: _ => true
       | _ => false)
  | _ => false

/-- Unanchored search for `/alias\s([\w-\.]+)=/` (used by isGroup). -/
def containsAliasPat : List Char → Bool
  | [] => false
  | c :: rest => aliasPatAt (c :: rest) || containsAliasPat rest

/-- Model of `Application.isGroup` (src/main.js lines 225-231):
the line is non-empty, does not contain `#!/usr/`, and does not contain
an alias definition pattern.  Note there is no requirement that the line
begin with `#`. -/
def isGroup (cs : List Char) : Bool :=
  !cs.isEmpty && !hasSubL "#!/usr/".toList cs && !containsAliasPat cs

/-- Model of `line.match(/^(?!#)\s{0,}?alias\s([\w-\.]+)=(.+)$/)`
(src/main.js line 179), returning the two capture groups.
The lookahead `(?!#)` rejects a leading `#`; the lazy `\s{0,}?` consumes
exactly the whitespace before the literal `alias` (it cannot consume
fewer characters, since `alias` starts with a non-whitespace letter);
`\s` is a single whitespace character; the name run is maximal and must
be followed by `=`; `(.+)$` requires a non-empty remainder containing no
line terminator. -/
def matchAliasCore (rest0 : List Char) : Option (List Char × List Char) :=
  match rest0 with
  | c1 :: c2 :: c3 :: c4 :: c5 :: d :: tail =>
    if c1 == 'a' && c2 == 'l' && c3 == 'i' && c4 == 'a' && c5 == 's' && isWs d then
      if (tail.dropWhile isNameChar).head? == some '=' then
        if (tail.takeWhile isNameChar).isEmpty then none
        else if (tail.dropWhile isNameChar).tail.isEmpty then none
        else if (tail.dropWhile isNameChar).tail.all dotMatch then
          some (tail.takeWhile isNameChar, (tail.dropWhile isNameChar).tail)
        else none
      else none
    else none
  | _ => none

/-- Anchored alias matcher: the `(?!#)` test at position 0, then the body. -/
def matchAliasL (cs : List Char) : Option (List Char × List Char) :=
  match cs with
  | [] => none
  | c :: _ => if c == '#' then none else matchAliasCore (cs.dropWhile isWs)

/-- Largest index of `c` in `l`, via the first index in the reversal. -/
def lastIdxOf (c : Char) (l : List Char) : Option Nat :=
  (findIdxO (fun x => x == c) l.reverse).map (fun k => l.length - 1 - k)

/-- Model of `command.replace(/^\"(.+)\"/, "$1")` (src/main.js line 189).
The pattern is anchored only at the start: it matches a leading `"`,
a non-empty greedy run of `.`-matchable characters, and a closing `"`;
greediness selects the last `"` reachable through `.`-matchable
characters, and the text after the closing quote is kept. -/
def stripCmdQuotes (cs : List Char) : List Char :=
  match cs with
  | [] => []
  | c :: rest =>
    if c == '"' then
      match lastIdxOf '"' (rest.takeWhile dotMatch) with
      | some m => if 1 ≤ m then rest.take m ++ rest.drop (m + 1) else c :: rest
      | none => c :: rest
    else c :: rest

/-- Model of `line.replace(/\s{0,}#\s{0,}/, "")` (src/main.js line 183).
The leftmost match is anchored at the first `#` of the string together
with the maximal whitespace run just before it and just after it; if the
string has no `#` it is returned unchanged. -/
def stripGroupMark : List Char → List Char
  | [] => []
  | c :: rest =>
    if c == '#' then rest.dropWhile isWs
    else if isWs c then
      match (c :: rest).dropWhile isWs with
      | '#' :: after => after.dropWhile isWs
      | _ => c :: stripGroupMark rest
    else c :: stripGroupMark rest

/-- Model of `Application.parseAlias` (src/main.js lines 178-198).
`currentGroup` is a local variable initialised to `"General"` on every
call; inside the matched branch it is updated only when `isGroup` holds
of the same line (which cannot happen, as proved below). -/
def parseAlias (line : String) (i : Nat) : AliasEntry :=
  match matchAliasL line.toList with
  | some (nm, cm) =>
    AliasEntry.aliasRec i (String.mk nm) (String.mk (stripCmdQuotes cm))
      (if isGroup line.toList then String.mk (stripGroupMark line.toList) else "General")
  | none => AliasEntry.lineRec i line (isGroup line.toList)

/-- Map with the element index, as `Array.prototype.map((x, i) => ...)`. -/
def mapIdxFrom {α β : Type} (f : α → Nat → β) : Nat → List α → List β
  | _, [] => []
  | n, x :: xs => f x n :: mapIdxFrom f (n + 1) xs

/-- Model of the `Application.aliases` getter (src/main.js lines 153-157):
split the aliases-file text into lines and parse each line with its index.
(The `this.aliasFile ? ... : []` guard is always taken: `readFileSync`
returns a Buffer, which is truthy, or throws.) -/
def parseAliasesAll (content : String) : List AliasEntry :=
  mapIdxFrom parseAlias 0 (linesOfStr content)

/-!
Alias serialization (src/main.js, Application.aliasToString /
saveAliases).
-/

/-- The fixed marker comment inserted on save (src/main.js line 248). -/
def warningComment : String :=
  "# This file is generated by Hulk. Direct edits may be overwritten"

/-- Model of `Application.aliasToString` (src/main.js lines 240-244):
alias records render re-quoted with double quotes; line records render
`text || ""` (the records produced by the parser are exactly the two
shapes below, so the final `return ""` branch of the source is not
reachable from them). -/
def aliasToString (e : AliasEntry) : String :=
  match e with
  | .aliasRec _ n c _ => "alias " ++ n ++ "=\"" ++ c ++ "\""
  | .lineRec _ t _ => if t == "" then "" else t

/-- Model of the file content written by `Application.saveAliases`
(src/main.js lines 246-250): render every record, `splice(1, 0, ...)` the
warning comment in, join with `"\n"`. -/
def saveAliasesContent (aliases : List AliasEntry) : String :=
  String.mk (joinWithNl (spliceInsert (aliases.map aliasToString) 1 warningComment))

/-- The rendering of the parse of one line: the serializer applied to
the classifier's record for that line. -/
def renderParse (L : String) (i : Nat) : String := aliasToString (parseAlias L i)

/-- A text containing no carriage-return characters. -/
def noCR (t : String) : Prop := t.toList.all (fun c => !(c == '\r')) = true

/-- One full parse-serialize pass over an aliases-file text. -/
def serializeParse (t : String) : String :=
  saveAliasesContent (parseAliasesAll t)

/-!
Env-file parsing (src/main.js, Application.parseEnvVar / env; the same
functions appear in src/unnamed/part_004 as createEnvVar / getEnv).
-/

/-- One record of the parsed env file.  A `varE` record's `group` field is
`none` as produced by `parseEnvVar` and is assigned by the `env` scan. -/
inductive EnvEntry : Type where
  | shebang (line : String)
  | varE (line : String) (name : String) (value : String) (group : Option String)
  | groupE (line : String) (name : String)
  | lineE (line : String)
deriving DecidableEq, Repr

/-- Model of `line.match(/^\s{0,}export\s([\w_]+)=(.+)$/)`
(src/main.js line 206): leading whitespace, literal `export`, one `\s`
character, a non-empty maximal run of `[\w_]` (`_` is already in `\w`)
followed by `=`, and a non-empty remainder with no line terminator. -/
def matchExportL (cs : List Char) : Option (List Char × List Char) :=
  match cs.dropWhile isWs with
  | 'e' :: 'x' :: 'p' :: 'o' :: 'r' :: 't' :: d :: tail =>
    if isWs d then
      match tail.dropWhile isWordChar with
      | '=' :: v =>
        if (tail.takeWhile isWordChar).isEmpty then none
        else if v.isEmpty then none
        else if v.all dotMatch then some (tail.takeWhile isWordChar, v)
        else none
      | _ => none
    else none
  | _ => none

/-- Model of `v.replace(/\\?"$/, "")` (src/main.js line 208): remove a
trailing `"` together with a backslash right before it, if present. -/
def stripEnvEnd (v : List Char) : List Char :=
  match v.reverse with
  | '"' :: '\\' :: rest => rest.reverse
  | '"' :: rest => rest.reverse
  | _ => v

/-- Model of the quoted-value normalisation of src/main.js lines 207-209:
when the captured value starts with `"`, drop that quote
(`/^\\?"/` matches just the quote there, since the first character is not
a backslash) and then strip a trailing `\"` or `"`. -/
def stripEnvValue (v : List Char) : List Char :=
  match v with
  | '"' :: rest => stripEnvEnd rest
  | _ => v

/-- Test of `line.match(/^\s{0,}#\s{0,}\w+/)` (src/main.js line 213):
leading whitespace, `#`, whitespace, and then at least one `\w`
character (backtracking cannot help: whitespace is never `\w`). -/
def groupTest (cs : List Char) : Bool :=
  match cs.dropWhile isWs with
  | [] => false
  | c :: rest =>
    c == '#' &&
      (match rest.dropWhile isWs with
       | [] => false
       | b :: _ => isWordChar b)

/-- First capture of `line.match(/^\s{0,}#\s{0,}(.+)$/)` with the
`matches ? matches[1] : "General"` fallback (src/main.js lines 214-215).
This definition is evaluated only under `groupTest` (a word character
follows the comment marker), where the greedy maximal whitespace split is
the regex's match; `(.+)$` fails — giving `"General"` — exactly when a
line terminator (a lone `\r`) occurs after the marker. -/
def groupNameOf (cs : List Char) : String :=
  match cs.dropWhile isWs with
  | [] => "General"
  | c :: rest =>
    if c == '#' then
      if (rest.dropWhile isWs).isEmpty then "General"
      else if (rest.dropWhile isWs).all dotMatch then String.mk (rest.dropWhile isWs)
      else "General"
    else "General"

/-- Model of `Application.parseEnvVar` (src/main.js lines 200-223).
`none` models the TypeError thrown on line 206 when an `export`-containing
line fails the var regex and the null match result is destructured. -/
def parseEnvVar (line : String) : Option EnvEntry :=
  if strHas line "#!/usr/bin/env" then some (.shebang line)
  else if strHas line "export" then
    match matchExportL line.toList with
    | some (nm, v) => some (.varE line (String.mk nm) (String.mk (stripEnvValue v)) none)
    | none => none
  else if groupTest line.toList then some (.groupE line (groupNameOf line.toList))
  else some (.lineE line)

/-- The `currentGroup` update of the `env` getter's loop body
(src/main.js line 168): a `group` record replaces the current group with
its name, everything else leaves it unchanged. -/
def envStep (g : String) (e : EnvEntry) : String :=
  match e with
  | .groupE _ n => n
  | _ => g

/-- The annotation of the loop body (src/main.js line 169): a `var`
record receives the current group, everything else is returned as-is. -/
def envAnnot (g : String) (e : EnvEntry) : EnvEntry :=
  match e with
  | .varE l n v _ => .varE l n v (some g)
  | x => x

/-- The stateful scan of the `Application.env` getter (src/main.js lines
163-172): `currentGroup` starts as the accumulator argument, a `group`
record replaces it with its name, and every `var` record is annotated
with the current value.  A thrown classification aborts the whole map. -/
def envScan (g : String) : List String → Option (List EnvEntry)
  | [] => some []
  | line :: rest =>
    match parseEnvVar line with
    | none => none
    | some e =>
      match envScan (envStep g e) rest with
      | none => none
      | some es => some (envAnnot g e :: es)

/-- Model of the `Application.env` getter: split the env-file text into
lines and run the group-tracking scan with initial group `"General"`. -/
def envOf (content : String) : Option (List EnvEntry) :=
  envScan "General" (linesOfStr content)

/-- Name of the last `group` record of the list, with default `d`. -/
def lastGroup (d : String) (es : List EnvEntry) : String :=
  es.foldl (fun acc e => match e with | .groupE _ n => n | _ => acc) d

/-!
The in-memory record store (src/unnamed/part_003, class Store).
-/

/-- The dynamically-typed `group` property of a stored record: a boolean
on passthrough line records, a string on alias records. -/
inductive GroupField : Type where
  | boolG (b : Bool)
  | strG (s : String)
deriving DecidableEq, Repr

/-- JavaScript truthiness of a `group` property value. -/
def GroupField.truthy : GroupField → Bool
  | .boolG b => b
  | .strG s => !(s == "")

/-- A record held by the store: the union of the fields used by
`Store.add` — `group`, `text` (absent on alias records), the alias
fields, the `line` index, and the generated `id` (absent on records that
came from a fetch). -/
structure StoreItem : Type where
  groupF : GroupField
  text : Option String
  aliasName : String
  command : String
  lineNo : Nat
  id : Option String
deriving DecidableEq, Repr

/-- The value argument of `Store.add("aliases", value)`:
`{alias, command, group}`. -/
structure AddValue : Type where
  aliasName : String
  command : String
  group : String
deriving DecidableEq, Repr

/-- The store's `Map` (src/unnamed/part_003 line 92), as an association
list in insertion order. -/
structure Store : Type where
  data : List (String × List StoreItem)
deriving DecidableEq, Repr

/-- Model of `Map.prototype.has`. -/
def Store.has (s : Store) (k : String) : Bool :=
  (s.data.find? (fun p => p.1 == k)).isSome

/-- Model of `Map.prototype.get` on the store's map. -/
def Store.lookup (s : Store) (k : String) : Option (List StoreItem) :=
  (s.data.find? (fun p => p.1 == k)).map (fun p => p.2)

/-- Model of `Map.prototype.set`: replace in place, or append a new key. -/
def Store.set (s : Store) (k : String) (v : List StoreItem) : Store :=
  if s.has k then ⟨s.data.map (fun p => if p.1 == k then (k, v) else p)⟩
  else ⟨s.data ++ [(k, v)]⟩

/-- Model of `Store.keys` (src/unnamed/part_003 lines 238-240). -/
def Store.keys (s : Store) : List String := s.data.map (fun p => p.1)

/-- The predicate of the `list.find` call in `Store.add` (lines 130-132):
a record whose `group` property is truthy and whose `text` property
(optional chaining: absent text is never a match) contains the new
value's group name as a substring. -/
def headingPred (g : String) (item : StoreItem) : Bool :=
  item.groupF.truthy &&
    (match item.text with
     | some t => strHas t g
     | none => false)

/-- The insertion index computed by `Store.add`:
`list.indexOf(groupHeading) + 1`.  When `find` produced no heading,
`indexOf(undefined)` is `-1` and the index is `0`. -/
def addIdx (list : List StoreItem) (g : String) : Nat :=
  match findIdxO (headingPred g) list with
  | some i => i + 1
  | none => 0

/-- Result of `Store.get` (src/unnamed/part_003 lines 211-223):
`undefined` for an unknown key or an unmatched id, the whole list when
`id` is omitted (or is the falsy empty string), else the found record. -/
inductive GetResult : Type where
  | undefVal
  | list (l : List StoreItem)
  | item (x : StoreItem)
deriving DecidableEq, Repr

/-- Model of `Store.get`. -/
def Store.get (s : Store) (key : String) (id : Option String) : GetResult :=
  match s.lookup key with
  | none => .undefVal
  | some l =>
    match id with
    | none => .list l
    | some i =>
      if i == "" then .list l
      else
        match l.find? (fun item => item.id == some i) with
        | some x => .item x
        | none => .undefVal

/-- Model of `Store.add` (src/unnamed/part_003 lines 122-149).  The
first component of the result is the returned id (`none` models the
implicit `undefined` return for keys other than `"aliases"`); `freshId`
stands for the `crypto.randomUUID()` value. -/
def Store.add (s : Store) (key : String) (value : AddValue) (freshId : String) :
    Option String × Store :=
  let s1 := if s.has key then s else s.set key []
  if key == "aliases" then
    let list := (s1.lookup key).getD []
    let idx := addIdx list value.group
    let item : StoreItem :=
      ⟨GroupField.strG value.group, none, value.aliasName, value.command, idx, some freshId⟩
    (some freshId, s1.set key (spliceInsert list idx item))
  else (none, s1)

/-- The fixed allow-list `VALID_STORE_KEYS` (src/unnamed/part_003 line 50). -/
def VALID_STORE_KEYS : List String := ["aliases"]

/-- The key-to-function map `STORE_KEY_FUNCTION_MAP` (lines 57-59). -/
def STORE_KEY_FUNCTION_MAP (key : String) : Option String :=
  if key == "aliases" then some "getAliases" else none

/-- Result of `Store.fetch`: a normal return (`ret none` models returning
`undefined`) or a thrown error with its message. -/
inductive FetchResult : Type where
  | ret (v : Option (List StoreItem))
  | err (msg : String)
deriving DecidableEq, Repr

/-- Model of `Store.fetch` (src/unnamed/part_003 lines 261-275).  `api`
models `window.API`: `none` means the call throws (missing method), which
the catch block rewraps.  A key outside the allow-list falls through the
outer `if` and the method returns `undefined`. -/
def Store.fetch (api : String → Option (List StoreItem)) (s : Store) (key : String) :
    FetchResult × Store :=
  if VALID_STORE_KEYS.contains key then
    match STORE_KEY_FUNCTION_MAP key with
    | some fn =>
      match api fn with
      | some l =>
        let s2 := s.set key l
        (.ret (s2.lookup key), s2)
      | none => (.err ("Store.fetch: no method \"window.API." ++ fn ++ "()\""), s)
    | none => (.err ("Key \"" ++ key ++ "\" is invalid"), s)
  else (.ret none, s)

/-!
The backup gateway.  In the current main process (src/main.js) the
`getAliases` handler evaluates `App.aliases`, which only reads and
parses; `Application.aliasBackupFilename` (lines 149-151) builds
`this.path(`${this.aliasFile}.hulk-backup`)` — interpolating the file's
CONTENT, not its path.  The legacy main process (src/unnamed/part_004,
lines 71-95) reads the file, unconditionally writes its content to
`${os.homedir()}/.aliases.hulk-backup`, then parses.  Writes are
modelled as an explicit (path, content) trace.
-/

/-- Model of `Application.path(arg)` : `${this.home}/${arg}`. -/
def appPath (home arg : String) : String := home ++ "/" ++ arg

/-- Model of the `Application.aliasPath` getter: `this.path(".aliases")`. -/
def aliasPath (home : String) : String := appPath home ".aliases"

/-- Model of `Application.aliasBackupFilename` (src/main.js lines
149-151): the template interpolates `this.aliasFile` — the Buffer holding
the file's content — so the result is
`home ++ "/" ++ content ++ ".hulk-backup"`. -/
def aliasBackupFilename (home content : String) : String :=
  appPath home (content ++ ".hulk-backup")

/-- The `getAliases` boundary operation of the current main process
(src/main.js line 273 → the `aliases` getter, lines 153-157): it performs
no write at all; the write trace is empty. -/
def getAliasesMain (content : String) : List (String × String) × List AliasEntry :=
  ([], parseAliasesAll content)

/-- Model of `backupAliasFilename` of the legacy main process
(src/unnamed/part_004 lines 79-81). -/
def backupAliasFilenameLegacy (home : String) : String :=
  home ++ "/.aliases.hulk-backup"

/-- The `getAliases` boundary operation of the legacy main process
(src/unnamed/part_004 lines 71-77): read, write the pre-edit content to
the backup path, then parse.  (The `if (!file) return` guard is dead:
`readFileSync` yields a truthy Buffer or throws.)  The read path there is
the literal `/home/daytonn/.aliases`. -/
def getAliasesLegacy (home content : String) : List (String × String) × List AliasEntry :=
  ([(backupAliasFilenameLegacy home, content)], parseAliasesAll content)

/-- The hard-coded aliases path of the legacy main process. -/
def legacyAliasesPath : String := "/home/daytonn/.aliases"

/-!
General helper lemmas about lists and strings, shared by the claim
theorems below.
-/

theorem toList_append (s t : String) : (s ++ t).toList = s.toList ++ t.toList := rfl

theorem takeWhile_all_self {α : Type} (p : α → Bool) (l : List α) :
    (l.takeWhile p).all p = true := by
  induction l with
  | nil => rfl
  | cons a l ih =>
    by_cases h : p a = true
    · simp [List.takeWhile_cons, h, ih]
    · simp [List.takeWhile_cons, h]

theorem takeWhile_append_of_all {α : Type} (p : α → Bool) (l1 l2 : List α)
    (h : l1.all p = true) : (l1 ++ l2).takeWhile p = l1 ++ l2.takeWhile p := by
  induction l1 with
  | nil => simp
  | cons a l1 ih =>
    simp only [List.all_cons, Bool.and_eq_true] at h
    simp [List.takeWhile_cons, h.1, ih h.2]

theorem dropWhile_append_of_all {α : Type} (p : α → Bool) (l1 l2 : List α)
    (h : l1.all p = true) : (l1 ++ l2).dropWhile p = l2.dropWhile p := by
  induction l1 with
  | nil => simp
  | cons a l1 ih =>
    simp only [List.all_cons, Bool.and_eq_true] at h
    simp [List.dropWhile_cons, h.1, ih h.2]

theorem dropWhile_head_false {α : Type} (p : α → Bool) (l : List α) (c : α) (cs : List α)
    (h : l.dropWhile p = c :: cs) : p c = false := by
  induction l with
  | nil => simp at h
  | cons a l ih =>
    by_cases ha : p a = true
    · exact ih (by simpa [List.dropWhile_cons, ha] using h)
    · rw [List.dropWhile_cons, if_neg ha] at h
      cases h
      exact Bool.not_eq_true _ ▸ Bool.of_not_eq_true ha

theorem get?_append_len {α : Type} (l1 : List α) (x : α) (l2 : List α) :
    (l1 ++ x :: l2).get? l1.length = some x := by
  induction l1 with
  | nil => rfl
  | cons a l1 ih => simpa using ih

theorem findIdxO_lt {α : Type} (p : α → Bool) (l : List α) (k : Nat)
    (h : findIdxO p l = some k) : k < l.length := by
  induction l generalizing k with
  | nil => simp [findIdxO] at h
  | cons a l ih =>
    cases hpa : p a with
    | true =>
      simp [findIdxO, hpa] at h
      simp [List.length_cons]
      omega
    | false =>
      simp only [findIdxO, hpa, Bool.false_eq_true, if_false, Option.map_eq_some'] at h
      obtain ⟨k', hk', rfl⟩ := h
      have := ih k' hk'
      simp only [List.length_cons]
      omega

theorem find?_append_none {α : Type} (p : α → Bool) (l1 l2 : List α)
    (h : l1.find? p = none) : (l1 ++ l2).find? p = l2.find? p := by
  induction l1 with
  | nil => rfl
  | cons a l1 ih =>
    cases hpa : p a with
    | true => simp [List.find?_cons, hpa] at h
    | false =>
      simp only [List.find?_cons, hpa] at h
      simp only [List.cons_append, List.find?_cons, hpa]
      exact ih h

/-!
Helper lemmas about the store's map operations.
-/

theorem find?_map_replace (data : List (String × List StoreItem)) (k : String)
    (v : List StoreItem) :
    (data.map (fun p => if p.1 == k then (k, v) else p)).find? (fun p => p.1 == k) =
      if (data.find? (fun p => p.1 == k)).isSome then some (k, v) else none := by
  induction data with
  | nil => rfl
  | cons q data ih =>
    cases hq : (q.1 == k) with
    | true =>
      have hq2 : q.1 = k := by simpa using hq
      simp [List.find?_cons, hq2]
    | false =>
      simp only [List.map_cons, hq, Bool.false_eq_true, if_false, List.find?_cons]
      exact ih

theorem lookup_set_self (s : Store) (k : String) (v : List StoreItem) :
    (s.set k v).lookup k = some v := by
  unfold Store.set Store.lookup Store.has
  cases h : (s.data.find? (fun p => p.1 == k)).isSome with
  | true => simp only [h, if_pos trivial, find?_map_replace, Option.map_some']
  | false =>
    rw [if_neg (by simp [h])]
    simp only []
    rw [find?_append_none _ _ _ (Option.not_isSome_iff_eq_none.mp (by simp [h]))]
    simp [List.find?_cons]

theorem has_of_lookup (s : Store) (k : String) (l : List StoreItem)
    (h : s.lookup k = some l) : s.has k = true := by
  unfold Store.lookup at h
  unfold Store.has
  cases hf : s.data.find? (fun p => p.1 == k) with
  | none => rw [hf] at h; simp at h
  | some q => simp [hf]

theorem keys_set_new (s : Store) (k : String) (v : List StoreItem)
    (h : s.has k = false) : (s.set k v).keys = s.keys ++ [k] := by
  unfold Store.set Store.keys
  rw [if_neg (by simp [h])]
  simp

/-!
Specification-side definitions, used only to compare the code's
behaviour against the spec's wording.
-/

/-- Modelled from the spec: the leading-comment pattern `^\s*#\s*` that,
per the specification, a group heading must match — leading whitespace
followed by a `#`. -/
def specLeadingComment (cs : List Char) : Bool :=
  match cs.dropWhile isWs with
  | '#' :: _ => true
  | _ => false

/-!
Theorems.
-/

/-- C1: the spec requires every alias record's `group` to name the
nearest preceding group heading (`"Git"` here); the code evaluates
`parseAlias` line by line with `currentGroup` a per-call local variable
(and the update guarded by `isGroup`, which is false on every line that
matches the alias regex), so the alias following the heading `# Git` is
parsed with group `"General"` instead. -/
theorem c1_group_inheritance_broken :
    parseAliasesAll "# Git\nalias gs=\"git status\"" =
      [AliasEntry.lineRec 0 "# Git" true,
       AliasEntry.aliasRec 1 "gs" "git status" "General"] := by
  decide

/-- C2: in the current main process the `getAliases` operation produces
an empty write trace — no backup is written before parsing — and
`aliasBackupFilename` interpolates the file's content rather than its
path, so it differs from the path-plus-suffix the spec requires; the
legacy main process is the variant that does write the pre-edit content
to `homedir + "/.aliases.hulk-backup"` before parsing. -/
theorem c2_no_backup_on_getAliases :
    (getAliasesMain "alias a=b").1 = [] ∧
    aliasBackupFilename "/home/u" "alias a=b" = "/home/u/alias a=b.hulk-backup" ∧
    aliasBackupFilename "/home/u" "alias a=b" ≠ aliasPath "/home/u" ++ ".hulk-backup" ∧
    getAliasesLegacy "/home/daytonn" "alias a=b" =
      ([(legacyAliasesPath ++ ".hulk-backup", "alias a=b")],
       parseAliasesAll "alias a=b") := by
  exact ⟨rfl, rfl, by decide, by decide⟩

/-- C3 counterexample: on the empty record list, `splice(1, 0, ...)`
clamps the start index to the array length, so the warning comment
becomes the first and only line of the output, not the second line the
claim requires for every list. -/
theorem c3_warning_first_on_empty :
    saveAliasesContent [] = warningComment ∧
    linesOfStr (saveAliasesContent []) = [warningComment] ∧
    (linesOfStr (saveAliasesContent [])).get? 1 = none := by
  decide

/-- C4 counterexample: serialize-parse is not idempotent — the second
pass inserts the fixed warning comment again, so the output gains an
extra line. -/
theorem c4_not_idempotent :
    serializeParse (serializeParse "alias x=1") ≠ serializeParse "alias x=1" := by
  decide

/-- C5 counterexample: `isGroup` never tests for a leading `#`, so the
plain word `hello` — which does not match the spec's leading-comment
pattern `^\s*#\s*` — is still marked as a group heading
(`group: true`) by the alias-file classifier. -/
theorem c5_heading_without_hash :
    parseAlias "hello" 0 = AliasEntry.lineRec 0 "hello" true ∧
    specLeadingComment "hello".toList = false := by
  decide

/-- C7: the line `# export stuff` contains the substring `export`, is
not a shebang, and fails the var regex `^\s*export\s([\w_]+)=(.+)$`, so
`parseEnvVar` destructures a null match and throws (modelled by `none`)
instead of producing the opaque `line` passthrough record. -/
theorem c7_export_lookalike_throws :
    parseEnvVar "# export stuff" = none ∧
    strHas "# export stuff" "export" = true ∧
    strHas "# export stuff" "#!/usr/bin/env" = false ∧
    parseEnvVar "# export stuff" ≠ some (EnvEntry.lineE "# export stuff") := by
  decide

/-- C8 counterexample: with the cached list `[heading "# G", alias a1 of
group G]`, `Store.add` inserts the new record at index 1 — immediately
after the heading record found by `find` — although the last line
belonging to group `G` is the alias at index 1, so the placement the
claim describes would be index 2. -/
theorem c8_insert_after_heading_not_group_end :
    ((Store.add
        ⟨[("aliases",
           [⟨GroupField.boolG true, some "# G", "", "", 0, none⟩,
            ⟨GroupField.strG "G", none, "a1", "c1", 1, none⟩])]⟩
        "aliases" ⟨"a2", "c2", "G"⟩ "id2").2.lookup "aliases" =
      some [⟨GroupField.boolG true, some "# G", "", "", 0, none⟩,
            ⟨GroupField.strG "G", none, "a2", "c2", 1, some "id2"⟩,
            ⟨GroupField.strG "G", none, "a1", "c1", 1, none⟩]) ∧
    ((Store.add
        ⟨[("aliases",
           [⟨GroupField.boolG true, some "# G", "", "", 0, none⟩,
            ⟨GroupField.strG "G", none, "a1", "c1", 1, none⟩])]⟩
        "aliases" ⟨"a2", "c2", "G"⟩ "id2").2.lookup "aliases" ≠
      some [⟨GroupField.boolG true, some "# G", "", "", 0, none⟩,
            ⟨GroupField.strG "G", none, "a1", "c1", 1, none⟩,
            ⟨GroupField.strG "G", none, "a2", "c2", 1, some "id2"⟩]) := by
  decide

/-- C9 counterexample: `Store.fetch` on the key `env`, which is outside
the allow-list, returns `undefined` normally (and leaves the store
untouched) instead of raising an error: the `Key is invalid` throw sits
inside the allow-list branch and is unreachable for such keys. -/
theorem c9_invalid_key_returns_undefined :
    Store.fetch (fun fn => if fn == "getAliases" then some [] else none) ⟨[]⟩ "env" =
      (FetchResult.ret none, (⟨[]⟩ : Store)) := by
  decide

/-- C3 amended: on a non-empty record list the warning comment is the
second line: the rendered lines are the head's rendering, then the
warning, then the remaining renderings, joined by newline; alias records
render as `alias <name>="<command>"` and line records render their
stored text verbatim (the empty string for blanks). -/
theorem c3_amended (e : AliasEntry) (l : List AliasEntry) :
    saveAliasesContent (e :: l) =
      String.mk (joinWithNl (aliasToString e :: warningComment :: l.map aliasToString)) ∧
    (∀ i n c g, (aliasToString (AliasEntry.aliasRec i n c g)).toList =
      'a' :: 'l' :: 'i' :: 'a' :: 's' :: ' ' ::
        (n.toList ++ '=' :: '"' :: (c.toList ++ ['"']))) ∧
    (∀ i t b, aliasToString (AliasEntry.lineRec i t b) = t) := by
  refine ⟨rfl, ?_, ?_⟩
  · intro i n c g
    show ("alias " ++ n ++ "=\"" ++ c ++ "\"").toList = _
    simp [toList_append]
  · intro i t b
    show (if t == "" then "" else t) = t
    by_cases h : t = ""
    · simp [h]
    · simp [h]

/-- C9 amended: for a key outside the allow-list `["aliases"]`,
`Store.fetch` returns `undefined` normally and leaves the store
untouched (it does not raise); for the allow-listed key `"aliases"`
with a working retrieval function, it replaces the cached collection
wholesale with the retrieved list and returns that list. -/
theorem c9_amended (api : String → Option (List StoreItem)) (s : Store) (key : String) :
    (VALID_STORE_KEYS.contains key = false →
      Store.fetch api s key = (FetchResult.ret none, s)) ∧
    (∀ l, api "getAliases" = some l →
      Store.fetch api s "aliases" = (FetchResult.ret (some l), s.set "aliases" l)) := by
  constructor
  · intro h
    unfold Store.fetch
    rw [h]
    rfl
  · intro l h
    unfold Store.fetch
    have hc : VALID_STORE_KEYS.contains "aliases" = true := by decide
    rw [hc]
    simp [STORE_KEY_FUNCTION_MAP, h, lookup_set_self]

/-- Witness for the amended C9 theorem at a concrete api and store. -/
theorem c9_amended_witness :
    (VALID_STORE_KEYS.contains "env" = false ∧
      Store.fetch (fun fn => if fn == "getAliases" then some [] else none) ⟨[]⟩ "env" =
        (FetchResult.ret none, (⟨[]⟩ : Store))) ∧
    ((fun fn => if fn == "getAliases" then some [] else none) "getAliases" =
        some ([] : List StoreItem) ∧
      Store.fetch (fun fn => if fn == "getAliases" then some [] else none) ⟨[]⟩ "aliases" =
        (FetchResult.ret (some []), Store.set ⟨[]⟩ "aliases" [])) :=
  ⟨⟨by decide, (c9_amended (fun fn => if fn == "getAliases" then some [] else none)
      ⟨[]⟩ "env").1 (by decide)⟩,
   ⟨rfl, (c9_amended (fun fn => if fn == "getAliases" then some [] else none)
      ⟨[]⟩ "aliases").2 [] rfl⟩⟩

/-- C10: adding a value under any key other than `"aliases"` that is not
yet in the store returns `undefined` and inserts nothing, but the
`this.data.set(key, [])` on the miss path still creates an empty cached
list, so the key afterwards shows up in `keys()` and `get(key)` yields
the empty list rather than `undefined`. -/
theorem c10_add_foreign_key_creates_empty (s : Store) (key : String) (v : AddValue)
    (fid : String) (hk : key ≠ "aliases") (hh : s.has key = false) :
    (Store.add s key v fid).1 = none ∧
    (Store.add s key v fid).2.lookup key = some [] ∧
    key ∈ (Store.add s key v fid).2.keys ∧
    Store.get (Store.add s key v fid).2 key none = GetResult.list [] := by
  have hkb : (key == "aliases") = false := by simpa using hk
  have h1 : Store.add s key v fid = (none, s.set key []) := by
    unfold Store.add
    rw [hh]
    simp only [Bool.false_eq_true, if_false, hkb]
  rw [h1]
  refine ⟨rfl, lookup_set_self s key [], ?_, ?_⟩
  · rw [keys_set_new s key [] hh]
    simp
  · unfold Store.get
    rw [lookup_set_self s key []]

/-- Witness for the C10 theorem on the empty store and the key `env`. -/
theorem c10_witness :
    ("env" ≠ "aliases" ∧ (Store.has ⟨[]⟩ "env") = false) ∧
    ((Store.add ⟨[]⟩ "env" ⟨"a", "c", "G"⟩ "id9").1 = none ∧
      (Store.add ⟨[]⟩ "env" ⟨"a", "c", "G"⟩ "id9").2.lookup "env" = some [] ∧
      "env" ∈ (Store.add ⟨[]⟩ "env" ⟨"a", "c", "G"⟩ "id9").2.keys ∧
      Store.get (Store.add ⟨[]⟩ "env" ⟨"a", "c", "G"⟩ "id9").2 "env" none =
        GetResult.list []) :=
  ⟨⟨by decide, by decide⟩,
   c10_add_foreign_key_creates_empty ⟨[]⟩ "env" ⟨"a", "c", "G"⟩ "id9"
     (by decide) (by decide)⟩

/-- C8 amended: `Store.add("aliases", value)` returns the freshly
generated id, and splices the new record — carrying that id and the
insertion index as its `line` — into the cached list at the index right
after the FIRST record matching the value's group as a heading
(a record with truthy `group` whose `text` contains the group name), or
at index 0 when no such heading exists; in particular the new record
lands immediately after the heading itself, not after the last line of
the group. -/
theorem c8_amended (s : Store) (v : AddValue) (fid : String) (list : List StoreItem)
    (h : s.lookup "aliases" = some list) :
    (Store.add s "aliases" v fid).1 = some fid ∧
    (Store.add s "aliases" v fid).2.lookup "aliases" =
      some (list.take (addIdx list v.group) ++
        ⟨GroupField.strG v.group, none, v.aliasName, v.command, addIdx list v.group,
          some fid⟩ :: list.drop (addIdx list v.group)) ∧
    (∀ i, findIdxO (headingPred v.group) list = some i →
      (list.take (addIdx list v.group) ++
        (⟨GroupField.strG v.group, none, v.aliasName, v.command, addIdx list v.group,
          some fid⟩ : StoreItem) :: list.drop (addIdx list v.group)).get? (i + 1) =
        some ⟨GroupField.strG v.group, none, v.aliasName, v.command,
          addIdx list v.group, some fid⟩) ∧
    (findIdxO (headingPred v.group) list = none →
      list.take (addIdx list v.group) ++
        (⟨GroupField.strG v.group, none, v.aliasName, v.command, addIdx list v.group,
          some fid⟩ : StoreItem) :: list.drop (addIdx list v.group) =
        ⟨GroupField.strG v.group, none, v.aliasName, v.command, 0, some fid⟩ :: list) := by
  have hh : s.has "aliases" = true := has_of_lookup s "aliases" list h
  have hadd : Store.add s "aliases" v fid =
      (some fid, s.set "aliases" (spliceInsert list (addIdx list v.group)
        ⟨GroupField.strG v.group, none, v.aliasName, v.command, addIdx list v.group,
          some fid⟩)) := by
    unfold Store.add
    rw [hh]
    simp [h]
  refine ⟨by rw [hadd], ?_, ?_, ?_⟩
  · rw [hadd]
    exact lookup_set_self _ _ _
  · intro i hi
    have hlt : i < list.length := findIdxO_lt _ _ _ hi
    have hidx : addIdx list v.group = i + 1 := by unfold addIdx; rw [hi]
    rw [hidx]
    have hlen : (list.take (i + 1)).length = i + 1 := by
      rw [List.length_take]
      omega
    calc (list.take (i + 1) ++ _ :: list.drop (i + 1)).get? (i + 1)
        = (list.take (i + 1) ++ _ :: list.drop (i + 1)).get? (list.take (i + 1)).length := by
          rw [hlen]
      _ = _ := get?_append_len _ _ _
  · intro hn
    have hidx : addIdx list v.group = 0 := by unfold addIdx; rw [hn]
    rw [hidx]
    simp

/-- Witness for the amended C8 theorem: a store holding a heading for
group `G` followed by one alias of the group. -/
theorem c8_amended_witness :
    (Store.lookup
        ⟨[("aliases",
           [⟨GroupField.boolG true, some "# G", "", "", 0, none⟩,
            ⟨GroupField.strG "G", none, "a1", "c1", 1, none⟩])]⟩ "aliases" =
      some [⟨GroupField.boolG true, some "# G", "", "", 0, none⟩,
            ⟨GroupField.strG "G", none, "a1", "c1", 1, none⟩]) ∧
    (Store.add
        ⟨[("aliases",
           [⟨GroupField.boolG true, some "# G", "", "", 0, none⟩,
            ⟨GroupField.strG "G", none, "a1", "c1", 1, none⟩])]⟩
        "aliases" ⟨"a9", "c9", "G"⟩ "id9").1 = some "id9" :=
  ⟨by decide,
   (c8_amended
     ⟨[("aliases",
        [⟨GroupField.boolG true, some "# G", "", "", 0, none⟩,
         ⟨GroupField.strG "G", none, "a1", "c1", 1, none⟩])]⟩
     ⟨"a9", "c9", "G"⟩ "id9"
     [⟨GroupField.boolG true, some "# G", "", "", 0, none⟩,
      ⟨GroupField.strG "G", none, "a1", "c1", 1, none⟩]
     (by decide)).1⟩

/-- The group-threading invariant of the env scan, generalised over the
initial group: every emitted `var` record carries the name of the last
`group` record before it, or the initial group when none precedes. -/
theorem envScan_group (lines : List String) : ∀ (g : String) (es : List EnvEntry),
    envScan g lines = some es →
    ∀ i l n v og, es.get? i = some (EnvEntry.varE l n v og) →
      og = some (lastGroup g (es.take i)) := by
  induction lines with
  | nil =>
    intro g es h i l n v og hi
    cases h
    simp at hi
  | cons line rest ih =>
    intro g es h i l n v og hi
    unfold envScan at h
    cases hp : parseEnvVar line with
    | none => rw [hp] at h; simp at h
    | some e =>
      rw [hp] at h
      replace h : (match envScan (envStep g e) rest with
          | none => none
          | some es2 => some (envAnnot g e :: es2)) = some es := h
      cases hs : envScan (envStep g e) rest with
      | none => rw [hs] at h; simp at h
      | some es2 =>
        rw [hs] at h
        simp only [Option.some.injEq] at h
        subst h
        cases i with
        | zero =>
          simp only [List.get?] at hi
          injection hi with hi
          cases e with
          | varE l2 n2 v2 o2 =>
            simp only [envAnnot, EnvEntry.varE.injEq] at hi
            simp [lastGroup, ← hi.2.2.2]
          | shebang l2 => simp [envAnnot] at hi
          | groupE l2 n2 => simp [envAnnot] at hi
          | lineE l2 => simp [envAnnot] at hi
        | succ i =>
          have hrec := ih (envStep g e) es2 hs i l n v og (by simpa using hi)
          rw [hrec]
          have hsw : lastGroup g ((envAnnot g e :: es2).take (i + 1)) =
              lastGroup (envStep g e) (es2.take i) := by
            rw [List.take_succ_cons]
            cases e <;> simp [lastGroup, envAnnot, envStep, List.foldl_cons]
          rw [hsw]

/-- C6: in a successfully parsed env file, every `var` record's group is
the name of the most recently emitted `group` record among the records
before it, defaulting to `"General"` when no heading precedes; the
group state is carried unchanged across all other record kinds. -/
theorem c6_env_group_invariant (content : String) (es : List EnvEntry)
    (h : envOf content = some es) (i : Nat) (l n v : String) (og : Option String)
    (hi : es.get? i = some (EnvEntry.varE l n v og)) :
    og = some (lastGroup "General" (es.take i)) :=
  envScan_group (linesOfStr content) "General" es h i l n v og hi

/-- Witness for the C6 theorem on a two-line env file. -/
theorem c6_witness :
    envOf "# Git\nexport FOO=bar" =
      some [EnvEntry.groupE "# Git" "Git",
            EnvEntry.varE "export FOO=bar" "FOO" "bar" (some "Git")] ∧
    some "Git" =
      some (lastGroup "General"
        ([EnvEntry.groupE "# Git" "Git",
          EnvEntry.varE "export FOO=bar" "FOO" "bar" (some "Git")].take 1)) :=
  ⟨by decide,
   c6_env_group_invariant "# Git\nexport FOO=bar" _ (by decide) 1
     "export FOO=bar" "FOO" "bar" (some "Git") (by decide)⟩

/-- C5 amended: the env-path classifier emits a `group` heading exactly
when the line contains neither `#!/usr/bin/env` nor `export` and
decomposes as whitespace, `#`, whitespace, then a body starting with a
word character; the display name is that body when it is free of line
terminators (stripping the leading whitespace, the `#`, and the
whitespace after it — but keeping trailing whitespace), and the literal
`"General"` otherwise. -/
theorem c5_amended (line name : String) :
    parseEnvVar line = some (EnvEntry.groupE line name) ↔
      (strHas line "#!/usr/bin/env" = false ∧ strHas line "export" = false ∧
       ∃ w1 w2 b0 brest,
         line.toList = w1 ++ '#' :: (w2 ++ b0 :: brest) ∧
         w1.all isWs = true ∧ w2.all isWs = true ∧
         isWordChar b0 = true ∧ isWs b0 = false ∧
         name = (if (b0 :: brest).all dotMatch then String.mk (b0 :: brest)
                 else "General")) := by
  constructor
  · intro h
    cases h1 : strHas line "#!/usr/bin/env" with
    | true => unfold parseEnvVar at h; rw [if_pos h1] at h; simp at h
    | false =>
      cases h2 : strHas line "export" with
      | true =>
        unfold parseEnvVar at h
        rw [if_neg (by simp [h1]), if_pos h2] at h
        cases hm : matchExportL line.toList with
        | some nv => obtain ⟨nm, v⟩ := nv; rw [hm] at h; simp at h
        | none => rw [hm] at h; simp at h
      | false =>
        cases h3 : groupTest line.toList with
        | false =>
          unfold parseEnvVar at h
          have h3d : groupTest line.data = false := h3
          rw [if_neg (by simp [h1]), if_neg (by simp [h2]), if_neg (by simp [h3d])] at h
          simp at h
        | true =>
          unfold parseEnvVar at h
          rw [if_neg (by simp [h1]), if_neg (by simp [h2]), if_pos h3] at h
          simp only [Option.some.injEq, EnvEntry.groupE.injEq] at h
          refine ⟨rfl, rfl, ?_⟩
          unfold groupTest at h3
          cases hd : line.toList.dropWhile isWs with
          | nil => rw [hd] at h3; simp at h3
          | cons c rest =>
            rw [hd] at h3
            simp only [Bool.and_eq_true, beq_iff_eq] at h3
            obtain ⟨hc, h3b⟩ := h3
            subst hc
            cases hrd : rest.dropWhile isWs with
            | nil => rw [hrd] at h3b; simp at h3b
            | cons b0 brest =>
              rw [hrd] at h3b
              refine ⟨line.toList.takeWhile isWs, rest.takeWhile isWs, b0, brest,
                ?_, takeWhile_all_self isWs _, takeWhile_all_self isWs _, h3b,
                dropWhile_head_false isWs rest b0 brest hrd, ?_⟩
              · conv_lhs => rw [← List.takeWhile_append_dropWhile isWs line.toList]
                rw [hd]
                conv_lhs => rw [show rest = rest.takeWhile isWs ++ rest.dropWhile isWs from
                  (List.takeWhile_append_dropWhile isWs rest).symm]
                rw [hrd]
              · rw [← h.2]
                unfold groupNameOf
                rw [hd]
                simp only [beq_self_eq_true, if_true, hrd]
                simp
  · rintro ⟨h1, h2, w1, w2, b0, brest, hdecomp, hw1, hw2, hword, hb0ws, hname⟩
    have hd : line.toList.dropWhile isWs = '#' :: (w2 ++ b0 :: brest) := by
      rw [hdecomp, dropWhile_append_of_all isWs w1 _ hw1, List.dropWhile_cons]
      simp [isWs]
    have hrd : (w2 ++ b0 :: brest).dropWhile isWs = b0 :: brest := by
      rw [dropWhile_append_of_all isWs w2 _ hw2, List.dropWhile_cons]
      simp [hb0ws]
    have h3 : groupTest line.toList = true := by
      unfold groupTest
      rw [hd]
      show ((('#' : Char) == '#') &&
        (match (w2 ++ b0 :: brest).dropWhile isWs with
         | [] => false
         | b :: _ => isWordChar b)) = true
      rw [hrd]
      simp [hword]
    have hn : groupNameOf line.toList = name := by
      unfold groupNameOf
      rw [hd]
      show (if (('#' : Char) == '#') = true then
        if ((w2 ++ b0 :: brest).dropWhile isWs).isEmpty then "General"
        else if ((w2 ++ b0 :: brest).dropWhile isWs).all dotMatch then
          String.mk ((w2 ++ b0 :: brest).dropWhile isWs)
        else "General"
        else "General") = name
      rw [hrd]
      simp only [beq_self_eq_true, if_true, List.isEmpty_cons, Bool.false_eq_true, if_false]
      exact hname.symm
    unfold parseEnvVar
    rw [if_neg (by simp [h1]), if_neg (by simp [h2]), if_pos h3, hn]

/-- Witness exercising the amended C5 theorem on the heading `# Git`. -/
theorem c5_amended_witness :
    strHas "# Git" "#!/usr/bin/env" = false ∧ strHas "# Git" "export" = false ∧
    ∃ w1 w2 b0 brest,
      "# Git".toList = w1 ++ '#' :: (w2 ++ b0 :: brest) ∧
      w1.all isWs = true ∧ w2.all isWs = true ∧
      isWordChar b0 = true ∧ isWs b0 = false ∧
      "Git" = (if (b0 :: brest).all dotMatch then String.mk (b0 :: brest)
               else "General") :=
  (c5_amended "# Git" "Git").mp (by decide)


theorem takeWhile_all_eq {α : Type} (p : α → Bool) (l : List α) (h : l.all p = true) :
    l.takeWhile p = l := by
  induction l with
  | nil => rfl
  | cons a l ih =>
    simp only [List.all_cons, Bool.and_eq_true] at h
    simp [List.takeWhile_cons, h.1, ih h.2]

theorem takeWhile_length_le {α : Type} (p : α → Bool) (l : List α) :
    (l.takeWhile p).length ≤ l.length := by
  induction l with
  | nil => simp
  | cons a l ih =>
    rw [List.takeWhile_cons]
    split
    · simp only [List.length_cons]
      omega
    · simp

theorem all_sub_take {α : Type} (p : α → Bool) (l : List α) (n : Nat) (h : l.all p = true) :
    (l.take n).all p = true := by
  rw [List.all_eq_true] at h ⊢
  intro x hx
  exact h x (List.take_subset n l hx)

theorem all_sub_drop {α : Type} (p : α → Bool) (l : List α) (n : Nat) (h : l.all p = true) :
    (l.drop n).all p = true := by
  rw [List.all_eq_true] at h ⊢
  intro x hx
  exact h x (List.drop_subset n l hx)

theorem findIdxO_cons_true {α : Type} (p : α → Bool) (a : α) (l : List α) (h : p a = true) :
    findIdxO p (a :: l) = some 0 := by
  simp [findIdxO, h]


theorem isEmpty_false_of_ne_nil {α : Type} (l : List α) (h : l ≠ []) :
    l.isEmpty = false := by
  cases l with
  | nil => exact absurd rfl h
  | cons a l => rfl

theorem matchAliasCore_props (rest0 nm cm : List Char)
    (h : matchAliasCore rest0 = some (nm, cm)) :
    nm.all isNameChar = true ∧ nm ≠ [] ∧ cm ≠ [] ∧ cm.all dotMatch = true := by
  unfold matchAliasCore at h
  split at h
  · rename_i c1 c2 c3 c4 c5 d tail
    split at h
    · rename_i hguard
      split at h
      · rename_i hhead
        split at h
        · simp at h
        · rename_i hname
          split at h
          · simp at h
          · rename_i hcmd
            split at h
            · rename_i hall
              injection h with h
              injection h with h1 h2
              refine ⟨?_, ?_, ?_, ?_⟩
              · rw [← h1]
                exact takeWhile_all_self isNameChar tail
              · intro hnil
                rw [h1, hnil] at hname
                simp at hname
              · intro hnil
                rw [h2, hnil] at hcmd
                simp at hcmd
              · rw [← h2]
                exact hall
            · simp at h
      · simp at h
    · simp at h
  · simp at h

theorem matchAliasL_props (cs nm cm : List Char)
    (h : matchAliasL cs = some (nm, cm)) :
    nm.all isNameChar = true ∧ nm ≠ [] ∧ cm ≠ [] ∧ cm.all dotMatch = true := by
  unfold matchAliasL at h
  split at h
  · simp at h
  · split at h
    · simp at h
    · exact matchAliasCore_props _ _ _ h

theorem stripCmdQuotes_props (cm : List Char) (h1 : cm ≠ []) (h2 : cm.all dotMatch = true) :
    stripCmdQuotes cm ≠ [] ∧ (stripCmdQuotes cm).all dotMatch = true := by
  cases cm with
  | nil => exact absurd rfl h1
  | cons c rest =>
    have hrest : rest.all dotMatch = true := by
      rw [List.all_cons] at h2
      exact (Bool.and_eq_true _ _ |>.mp h2).2
    simp only [stripCmdQuotes]
    by_cases hc : (c == '"') = true
    · rw [if_pos hc]
      cases hlast : lastIdxOf '"' (rest.takeWhile dotMatch) with
      | none => exact ⟨by simp, h2⟩
      | some m =>
        show ((if 1 ≤ m then rest.take m ++ rest.drop (m + 1) else c :: rest) ≠ [] ∧
          (if 1 ≤ m then rest.take m ++ rest.drop (m + 1) else c :: rest).all dotMatch = true)
        by_cases hm : 1 ≤ m
        · rw [if_pos hm]
          have hmlt : m < rest.length := by
            unfold lastIdxOf at hlast
            rw [Option.map_eq_some'] at hlast
            obtain ⟨k, hk, hmk⟩ := hlast
            have hklt := findIdxO_lt _ _ _ hk
            have hrlen : (rest.takeWhile dotMatch).length ≤ rest.length :=
              takeWhile_length_le _ _
            simp only [List.length_reverse] at hklt
            omega
          constructor
          · intro hnil
            have hlen0 := congrArg List.length hnil
            rw [List.length_append, List.length_take] at hlen0
            simp only [List.length_nil] at hlen0
            omega
          · rw [List.all_append]
            exact Bool.and_eq_true _ _ |>.mpr
              ⟨all_sub_take _ _ _ hrest, all_sub_drop _ _ _ hrest⟩
        · rw [if_neg hm]
          exact ⟨by simp, h2⟩
    · rw [if_neg hc]
      exact ⟨by simp, h2⟩

theorem stripCmdQuotes_render (c0 : List Char) (h1 : c0 ≠ []) (h2 : c0.all dotMatch = true) :
    stripCmdQuotes ('"' :: (c0 ++ ['"'])) = c0 := by
  have hrun : (c0 ++ ['"']).takeWhile dotMatch = c0 ++ ['"'] := by
    apply takeWhile_all_eq
    rw [List.all_append]
    simp [h2, dotMatch]
  have hlast : lastIdxOf '"' ((c0 ++ ['"']).takeWhile dotMatch) = some c0.length := by
    unfold lastIdxOf
    rw [hrun, show (c0 ++ ['"']).reverse = '"' :: c0.reverse by
      rw [List.reverse_append]; rfl]
    rw [findIdxO_cons_true _ _ _ (by simp)]
    simp [List.length_append]
  have hm1 : 1 ≤ c0.length := by
    cases c0 with
    | nil => exact absurd rfl h1
    | cons a l => simp
  simp only [stripCmdQuotes]
  rw [if_pos (by simp : (('"' : Char) == '"') = true)]
  rw [hlast]
  show (if 1 ≤ c0.length then
      (c0 ++ ['"']).take c0.length ++ (c0 ++ ['"']).drop (c0.length + 1)
    else '"' :: (c0 ++ ['"'])) = c0
  rw [if_pos hm1, List.take_left]
  have hdrop : (c0 ++ ['"']).drop (c0.length + 1) = [] := by
    have hlen : (c0 ++ ['"']).length = c0.length + 1 := by simp
    rw [← hlen, List.drop_length]
  rw [hdrop, List.append_nil]

theorem matchAliasCore_render (nm c0 : List Char)
    (hnm : nm.all isNameChar = true) (hne : nm ≠ [])
    (hdot : c0.all dotMatch = true) :
    matchAliasCore ('a' :: 'l' :: 'i' :: 'a' :: 's' :: ' ' ::
      (nm ++ '=' :: '"' :: (c0 ++ ['"']))) = some (nm, '"' :: (c0 ++ ['"'])) := by
  have hdw : (nm ++ '=' :: '"' :: (c0 ++ ['"'])).dropWhile isNameChar =
      '=' :: '"' :: (c0 ++ ['"']) := by
    rw [dropWhile_append_of_all isNameChar nm _ hnm, List.dropWhile_cons]
    rw [if_neg (by decide)]
  have htw : (nm ++ '=' :: '"' :: (c0 ++ ['"'])).takeWhile isNameChar = nm := by
    rw [takeWhile_append_of_all isNameChar nm _ hnm, List.takeWhile_cons]
    rw [if_neg (by decide), List.append_nil]
  simp only [matchAliasCore]
  rw [if_pos (by decide : ((('a' : Char) == 'a') && (('l' : Char) == 'l') &&
    (('i' : Char) == 'i') && (('a' : Char) == 'a') && (('s' : Char) == 's') &&
    isWs ' ') = true)]
  rw [hdw, htw]
  simp only [List.head?_cons, List.tail_cons]
  rw [if_pos (by simp)]
  rw [if_neg (by rw [isEmpty_false_of_ne_nil nm hne]; simp)]
  rw [if_neg (by simp)]
  rw [if_pos (by simp [hdot, dotMatch] : (('"' :: (c0 ++ ['"'])).all dotMatch) = true)]


theorem matchAliasL_render (nm c0 : List Char)
    (hnm : nm.all isNameChar = true) (hne : nm ≠ [])
    (hdot : c0.all dotMatch = true) :
    matchAliasL ('a' :: 'l' :: 'i' :: 'a' :: 's' :: ' ' ::
      (nm ++ '=' :: '"' :: (c0 ++ ['"']))) = some (nm, '"' :: (c0 ++ ['"'])) := by
  simp only [matchAliasL]
  rw [if_neg (by decide : ¬((('a' : Char) == '#') = true))]
  rw [List.dropWhile_cons, if_neg (by decide : ¬(isWs 'a' = true))]
  exact matchAliasCore_render nm c0 hnm hne hdot

theorem aliasToString_line (i : Nat) (L : String) (b : Bool) :
    aliasToString (AliasEntry.lineRec i L b) = L := by
  show (if L == "" then "" else L) = L
  by_cases h : L = ""
  · simp [h]
  · simp [h]

theorem aliasToString_alias (i : Nat) (n c g : String) :
    aliasToString (AliasEntry.aliasRec i n c g) =
      "alias " ++ n ++ "=\"" ++ c ++ "\"" := rfl

theorem parseAlias_eq_none (L : String) (i : Nat) (hm : matchAliasL L.toList = none) :
    parseAlias L i = AliasEntry.lineRec i L (isGroup L.toList) := by
  unfold parseAlias
  rw [hm]

theorem parseAlias_eq_some (L : String) (i : Nat) (nm cm : List Char)
    (hm : matchAliasL L.toList = some (nm, cm)) :
    parseAlias L i = AliasEntry.aliasRec i (String.mk nm) (String.mk (stripCmdQuotes cm))
      (if isGroup L.toList then String.mk (stripGroupMark L.toList) else "General") := by
  unfold parseAlias
  rw [hm]

theorem render_toList (nm c0 : List Char) :
    ("alias " ++ String.mk nm ++ "=\"" ++ String.mk c0 ++ "\"").toList =
      'a' :: 'l' :: 'i' :: 'a' :: 's' :: ' ' :: (nm ++ '=' :: '"' :: (c0 ++ ['"'])) := by
  simp only [toList_append]
  show ('a' :: 'l' :: 'i' :: 'a' :: 's' :: ' ' :: []) ++ nm ++ ('=' :: '"' :: []) ++ c0 ++
    ('"' :: []) = _
  simp [List.append_assoc]


theorem renderParse_idem (L : String) (i j : Nat) :
    renderParse (renderParse L i) j = renderParse L i := by
  unfold renderParse
  cases hm : matchAliasL L.toList with
  | none =>
    rw [parseAlias_eq_none L i hm, aliasToString_line,
      parseAlias_eq_none L j hm, aliasToString_line]
  | some nv =>
    obtain ⟨nm, cm⟩ := nv
    obtain ⟨hnmAll, hnmNe, hcmNe, hcmDot⟩ := matchAliasL_props _ _ _ hm
    obtain ⟨hc0Ne, hc0Dot⟩ := stripCmdQuotes_props cm hcmNe hcmDot
    rw [parseAlias_eq_some L i nm cm hm, aliasToString_alias]
    have hm2 : matchAliasL ("alias " ++ String.mk nm ++ "=\"" ++
        String.mk (stripCmdQuotes cm) ++ "\"").toList =
        some (nm, '"' :: (stripCmdQuotes cm ++ ['"'])) := by
      rw [render_toList]
      exact matchAliasL_render nm (stripCmdQuotes cm) hnmAll hnmNe hc0Dot
    rw [parseAlias_eq_some _ j _ _ hm2, aliasToString_alias,
      stripCmdQuotes_render (stripCmdQuotes cm) hc0Ne hc0Dot]

theorem consHead_ne_nil (c : Char) (ls : List (List Char)) : consHead c ls ≠ [] := by
  cases ls <;> simp [consHead]

theorem splitLines_ne_nil (cs : List Char) : splitLines cs ≠ [] := by
  cases cs with
  | nil => simp [splitLines]
  | cons c rest =>
    cases rest with
    | nil =>
      simp only [splitLines]
      split <;> simp
    | cons d rest2 =>
      simp only [splitLines]
      split
      · simp
      · split
        · simp
        · exact consHead_ne_nil _ _

theorem clean_not_nl (c : Char) (h : cleanChar c = true) : (c == '\n') = false := by
  simp only [cleanChar, Bool.not_eq_true', Bool.or_eq_false_iff] at h
  exact h.1

theorem clean_not_cr (c : Char) (h : cleanChar c = true) : (c == '\r') = false := by
  simp only [cleanChar, Bool.not_eq_true', Bool.or_eq_false_iff] at h
  exact h.2

theorem splitLines_clean (cs : List Char) (h : cs.all cleanChar = true) :
    splitLines cs = [cs] := by
  induction cs with
  | nil => rfl
  | cons c rest ih =>
    rw [List.all_cons, Bool.and_eq_true] at h
    cases rest with
    | nil =>
      simp only [splitLines]
      rw [if_neg (by simp [clean_not_nl c h.1])]
    | cons d rest2 =>
      simp only [splitLines]
      rw [if_neg (by simp [clean_not_nl c h.1]),
        if_neg (by simp [clean_not_cr c h.1]), ih h.2]
      rfl

theorem splitLines_append_nl (pre suf : List Char) (h : pre.all cleanChar = true) :
    splitLines (pre ++ '\n' :: suf) = pre :: splitLines suf := by
  induction pre with
  | nil =>
    cases suf with
    | nil => simp [splitLines]
    | cons s ss => simp [splitLines]
  | cons p pre2 ih =>
    rw [List.all_cons, Bool.and_eq_true] at h
    cases hX : pre2 ++ '\n' :: suf with
    | nil => simp at hX
    | cons d rest =>
      rw [List.cons_append, hX]
      simp only [splitLines]
      rw [if_neg (by simp [clean_not_nl p h.1]),
        if_neg (by simp [clean_not_cr p h.1]), ← hX, ih h.2]
      rfl

theorem splitLines_all_clean (cs : List Char)
    (h : cs.all (fun c => !(c == '\r')) = true) :
    ∀ l ∈ splitLines cs, l.all cleanChar = true := by
  induction cs with
  | nil =>
    intro l hl
    simp only [splitLines, List.mem_singleton] at hl
    simp [hl]
  | cons c rest ih =>
    rw [List.all_cons, Bool.and_eq_true] at h
    have hcr : (c == '\r') = false := by
      have := h.1
      cases hb : (c == '\r') with
      | false => rfl
      | true => rw [hb] at this; simp at this
    intro l hl
    cases rest with
    | nil =>
      simp only [splitLines] at hl
      by_cases hcn : (c == '\n') = true
      · rw [if_pos hcn] at hl
        simp only [List.mem_cons, List.not_mem_nil, or_false] at hl
        rcases hl with h1 | h1 <;> simp [h1]
      · rw [if_neg hcn] at hl
        simp only [List.mem_singleton] at hl
        subst hl
        simp only [List.all_cons, List.all_nil, Bool.and_true]
        simp only [cleanChar, Bool.not_eq_true']
        rw [Bool.or_eq_false_iff]
        exact ⟨by cases hb : (c == '\n') with
          | false => rfl
          | true => exact absurd hb hcn, hcr⟩
    | cons d rest2 =>
      simp only [splitLines] at hl
      by_cases hcn : (c == '\n') = true
      · rw [if_pos hcn] at hl
        rcases List.mem_cons.mp hl with h1 | h1
        · simp [h1]
        · exact ih h.2 l h1
      · rw [if_neg hcn, if_neg (by simp [hcr])] at hl
        cases hsp : splitLines (d :: rest2) with
        | nil => exact absurd hsp (splitLines_ne_nil _)
        | cons l0 ls =>
          rw [hsp] at hl
          simp only [consHead] at hl
          rcases List.mem_cons.mp hl with h1 | h1
          · subst h1
            rw [List.all_cons, Bool.and_eq_true]
            refine ⟨?_, ?_⟩
            · simp only [cleanChar, Bool.not_eq_true']
              rw [Bool.or_eq_false_iff]
              exact ⟨by cases hb : (c == '\n') with
                | false => rfl
                | true => exact absurd hb hcn, hcr⟩
            · exact ih h.2 l0 (by rw [hsp]; exact List.mem_cons_self _ _)
          · exact ih h.2 l (by rw [hsp]; exact List.mem_cons_of_mem _ h1)

theorem join_then_split (R : List String) (hne : R ≠ [])
    (hcl : ∀ x ∈ R, x.toList.all cleanChar = true) :
    splitLines (joinWithNl R) = R.map String.toList := by
  induction R with
  | nil => exact absurd rfl hne
  | cons x R2 ih =>
    cases R2 with
    | nil =>
      show splitLines x.toList = [x.toList]
      exact splitLines_clean x.toList (hcl x (List.mem_singleton_self x))
    | cons y R3 =>
      show splitLines (x.toList ++ '\n' :: joinWithNl (y :: R3)) = _
      rw [splitLines_append_nl _ _ (hcl x (List.mem_cons_self _ _)),
        ih (by simp) (fun z hz => hcl z (List.mem_cons_of_mem _ hz))]
      rfl

theorem all_mono {α : Type} (p q : α → Bool) (l : List α)
    (himp : ∀ c, p c = true → q c = true) (h : l.all p = true) : l.all q = true := by
  rw [List.all_eq_true] at h ⊢
  intro x hx
  exact himp x (h x hx)

theorem nameChar_clean (c : Char) (h : isNameChar c = true) : cleanChar c = true := by
  have h1 : c ≠ '\n' := fun he => by rw [he] at h; exact absurd h (by decide)
  have h2 : c ≠ '\r' := fun he => by rw [he] at h; exact absurd h (by decide)
  simp [cleanChar, h1, h2]

theorem dot_clean (c : Char) (h : dotMatch c = true) : cleanChar c = true := by
  have h1 : c ≠ '\n' := fun he => by rw [he] at h; exact absurd h (by decide)
  have h2 : c ≠ '\r' := fun he => by rw [he] at h; exact absurd h (by decide)
  simp [cleanChar, h1, h2]

theorem renderParse_clean (L : String) (i : Nat)
    (hL : L.toList.all cleanChar = true) :
    (renderParse L i).toList.all cleanChar = true := by
  unfold renderParse
  cases hm : matchAliasL L.toList with
  | none => rw [parseAlias_eq_none L i hm, aliasToString_line]; exact hL
  | some nv =>
    obtain ⟨nm, cm⟩ := nv
    obtain ⟨hnmAll, hnmNe, hcmNe, hcmDot⟩ := matchAliasL_props _ _ _ hm
    obtain ⟨hc0Ne, hc0Dot⟩ := stripCmdQuotes_props cm hcmNe hcmDot
    rw [parseAlias_eq_some L i nm cm hm, aliasToString_alias, render_toList]
    have hnmC : nm.all cleanChar = true := all_mono _ _ _ nameChar_clean hnmAll
    have hc0C : (stripCmdQuotes cm).all cleanChar = true := all_mono _ _ _ dot_clean hc0Dot
    simp [List.all_cons, List.all_append, hnmC, hc0C, cleanChar]

theorem renderParse_warning (j : Nat) : renderParse warningComment j = warningComment := by
  have hm : matchAliasL warningComment.toList = none := by decide
  unfold renderParse
  rw [parseAlias_eq_none _ j hm, aliasToString_line]

theorem mem_mapIdxFrom {α β : Type} (f : α → Nat → β) (l : List α) (n : Nat) (e : β)
    (h : e ∈ mapIdxFrom f n l) : ∃ x i, x ∈ l ∧ e = f x i := by
  induction l generalizing n with
  | nil => simp [mapIdxFrom] at h
  | cons x xs ih =>
    simp only [mapIdxFrom, List.mem_cons] at h
    rcases h with h | h
    · exact ⟨x, n, List.mem_cons_self _ _, h⟩
    · obtain ⟨y, i, hy, he⟩ := ih (n + 1) h
      exact ⟨y, i, List.mem_cons_of_mem _ hy, he⟩

theorem mapIdxFrom_render_fix (R : List String)
    (hfix : ∀ L ∈ R, ∀ j, renderParse L j = L) :
    ∀ n, (mapIdxFrom parseAlias n R).map aliasToString = R := by
  induction R with
  | nil => intro n; rfl
  | cons x R2 ih =>
    intro n
    simp only [mapIdxFrom, List.map_cons]
    rw [show aliasToString (parseAlias x n) = renderParse x n from rfl,
      hfix x (List.mem_cons_self _ _) n,
      ih (fun L hL j => hfix L (List.mem_cons_of_mem _ hL) j) (n + 1)]

theorem mem_spliceInsert {α : Type} (l : List α) (i : Nat) (y x : α)
    (h : x ∈ spliceInsert l i y) : x = y ∨ x ∈ l := by
  unfold spliceInsert at h
  rw [List.mem_append, List.mem_cons] at h
  rcases h with h | h | h
  · exact Or.inr (List.take_subset _ _ h)
  · exact Or.inl h
  · exact Or.inr (List.drop_subset _ _ h)

theorem length_spliceInsert {α : Type} (l : List α) (x : α) (hl : l ≠ []) :
    (spliceInsert l 1 x).length = l.length + 1 := by
  have h1 : 1 ≤ l.length := by
    cases l with
    | nil => exact absurd rfl hl
    | cons a l2 => simp
  simp only [spliceInsert, List.length_append, List.length_cons, List.length_take,
    List.length_drop]
  omega

theorem spliceInsert_ne_nil {α : Type} (l : List α) (i : Nat) (x : α) :
    spliceInsert l i x ≠ [] := by
  unfold spliceInsert
  simp


/-- C4 amended: serialize-parse is not idempotent; instead, for every
carriage-return-free text, a second serialize-parse pass reproduces the
first pass's lines exactly and splices one more copy of the warning
comment in at index 1, so the result always differs from the first pass
(by exactly that extra line). -/
theorem c4_amended (t : String) (h : noCR t) :
    serializeParse (serializeParse t) =
      String.mk (joinWithNl (spliceInsert (linesOfStr (serializeParse t)) 1
        warningComment)) ∧
    serializeParse (serializeParse t) ≠ serializeParse t := by
  have hWclean : warningComment.toList.all cleanChar = true := by decide
  have hlinesClean : ∀ L ∈ linesOfStr t, L.toList.all cleanChar = true := by
    intro L hL
    simp only [linesOfStr, List.mem_map] at hL
    obtain ⟨l, hl, rfl⟩ := hL
    exact splitLines_all_clean t.toList h l hl
  have hmemR : ∀ x ∈ spliceInsert ((parseAliasesAll t).map aliasToString) 1
      warningComment,
      x.toList.all cleanChar = true ∧ ∀ j, renderParse x j = x := by
    intro x hx
    rcases mem_spliceInsert _ _ _ _ hx with hxe | hxm
    · subst hxe
      exact ⟨hWclean, renderParse_warning⟩
    · rw [List.mem_map] at hxm
      obtain ⟨e, he, rfl⟩ := hxm
      obtain ⟨L, i, hL, rfl⟩ := mem_mapIdxFrom parseAlias (linesOfStr t) 0 e he
      refine ⟨renderParse_clean L i (hlinesClean L hL), ?_⟩
      intro j
      exact renderParse_idem L i j
  have hRne : spliceInsert ((parseAliasesAll t).map aliasToString) 1
      warningComment ≠ [] := spliceInsert_ne_nil _ _ _
  have hRclean : ∀ x ∈ spliceInsert ((parseAliasesAll t).map aliasToString) 1
      warningComment, x.toList.all cleanChar = true := fun x hx => (hmemR x hx).1
  have keyA : linesOfStr (serializeParse t) =
      spliceInsert ((parseAliasesAll t).map aliasToString) 1 warningComment := by
    show ((splitLines (joinWithNl _)).map String.mk) = _
    rw [join_then_split _ hRne hRclean, List.map_map]
    have hid : (String.mk ∘ String.toList) = id := funext (fun s => rfl)
    rw [hid, List.map_id]
  have keyC : (parseAliasesAll (serializeParse t)).map aliasToString =
      spliceInsert ((parseAliasesAll t).map aliasToString) 1 warningComment := by
    show (mapIdxFrom parseAlias 0 (linesOfStr (serializeParse t))).map aliasToString = _
    rw [keyA]
    exact mapIdxFrom_render_fix _ (fun L hL j => (hmemR L hL).2 j) 0
  have hc1 : serializeParse (serializeParse t) =
      String.mk (joinWithNl (spliceInsert (spliceInsert
        ((parseAliasesAll t).map aliasToString) 1 warningComment) 1 warningComment)) :=
    congrArg (fun z => String.mk (joinWithNl (spliceInsert z 1 warningComment))) keyC
  constructor
  · rw [keyA]
    exact hc1
  · intro heq
    have hc2 : String.mk (joinWithNl (spliceInsert (spliceInsert
        ((parseAliasesAll t).map aliasToString) 1 warningComment) 1 warningComment)) =
        String.mk (joinWithNl (spliceInsert ((parseAliasesAll t).map aliasToString) 1
          warningComment)) := by
      rw [← hc1]
      exact heq
    have hj : joinWithNl (spliceInsert (spliceInsert
        ((parseAliasesAll t).map aliasToString) 1 warningComment) 1 warningComment) =
        joinWithNl (spliceInsert ((parseAliasesAll t).map aliasToString) 1
          warningComment) := by
      injection hc2
    have hs := congrArg splitLines hj
    rw [join_then_split _ (spliceInsert_ne_nil _ _ _)
        (fun x hx => by
          rcases mem_spliceInsert _ _ _ _ hx with hxe | hxm
          · subst hxe; exact hWclean
          · exact hRclean x hxm),
      join_then_split _ hRne hRclean] at hs
    have hlen := congrArg List.length hs
    rw [List.length_map, List.length_map,
      length_spliceInsert _ _ hRne] at hlen
    omega

/-- Witness for the amended C4 theorem at the one-alias file. -/
theorem c4_amended_witness :
    noCR "alias x=1" ∧
    (serializeParse (serializeParse "alias x=1") =
      String.mk (joinWithNl (spliceInsert (linesOfStr (serializeParse "alias x=1")) 1
        warningComment)) ∧
     serializeParse (serializeParse "alias x=1") ≠ serializeParse "alias x=1") :=
  ⟨by unfold noCR; decide, c4_amended "alias x=1" (by unfold noCR; decide)⟩

end Hulk
